import Mathlib

/-!
Verification of the usage-statistics / calendar computation of the recipe
application (`display_stats_and_calendar` in `app_gui_guit.py`), against its
natural-language specification (`summarize(events, reference_date)`).

The Python routine builds a set of cooked-on dates from the saved recipes,
counts the events of the current month, walks backward from today to compute
a streak, and renders a month calendar marking cooked days.  The single read
of the host clock (`datetime.date.today()`) is embedded as the explicit
parameter `today` / `reference_date`, as the specification prescribes.
-/

namespace KitchenLog

/-- A calendar date, as Python's `datetime.date` (year, month, day). -/
structure Date where
  year : Nat
  month : Nat
  day : Nat
deriving DecidableEq, Repr

/-- A timestamp, as Python's `datetime.datetime`: a date plus a
time-of-day component (seconds within the day). -/
structure Timestamp where
  date : Date
  seconds : Nat
deriving DecidableEq, Repr

/-- One saved recipe record, reduced to the field the statistics routine
reads: `created_at` (parsed from its ISO string by the collaborator). -/
structure CookingEvent where
  created_at : Timestamp
deriving DecidableEq, Repr

/-- `datetime.datetime.fromisoformat(r['created_at']).date()`: the calendar
date component of the event's timestamp. -/
def occurred_date (e : CookingEvent) : Date :=
  e.created_at.date

/-- Gregorian leap year test, as Python's `calendar.isleap`. -/
def isLeap (y : Nat) : Bool :=
  y % 4 == 0 && (y % 100 != 0 || y % 400 == 0)

/-- Number of days in a month, as Python's `calendar.monthrange` second
component (`mdays` with the February leap adjustment). -/
def daysInMonth (y m : Nat) : Nat :=
  if m = 2 then (if isLeap y then 29 else 28)
  else if m = 4 ∨ m = 6 ∨ m = 9 ∨ m = 11 then 30
  else 31

/-- A date is valid when Python's `datetime.date` would accept it. -/
def Date.Valid (d : Date) : Prop :=
  1 ≤ d.year ∧ 1 ≤ d.month ∧ d.month ≤ 12 ∧ 1 ≤ d.day ∧ d.day ≤ daysInMonth d.year d.month

instance (d : Date) : Decidable d.Valid := by
  unfold Date.Valid; infer_instance

/-- `check_date - datetime.timedelta(days=1)`: the previous calendar day
(on valid dates this agrees with Python's ordinal arithmetic). -/
def Date.pred (d : Date) : Date :=
  if 1 < d.day then ⟨d.year, d.month, d.day - 1⟩
  else if 1 < d.month then ⟨d.year, d.month - 1, daysInMonth d.year (d.month - 1)⟩
  else ⟨d.year - 1, 12, 31⟩

/-- The date reached after stepping `n` days backward. -/
def Date.predIter : Nat → Date → Date
  | 0, d => d
  | n + 1, d => Date.predIter n d.pred

/-- Days before year `y` in the proleptic Gregorian calendar, as Python's
`datetime._days_before_year`. -/
def days_before_year (y : Nat) : Nat :=
  (y - 1) * 365 + (y - 1) / 4 + (y - 1) / 400 - (y - 1) / 100

/-- Days of year `y` that precede month `m`. -/
def days_before_month (y m : Nat) : Nat :=
  ((List.range' 1 (m - 1)).map (daysInMonth y)).sum

/-- Python's `datetime.date.toordinal`: day 1 is January 1 of year 1. -/
def toordinal (d : Date) : Nat :=
  days_before_year d.year + days_before_month d.year d.month + d.day

/-- Python's `datetime.date.weekday`: Monday is 0. -/
def weekday (d : Date) : Nat :=
  (toordinal d + 6) % 7

/-- Worker for `weekRows`: structural recursion on a step budget that the
caller sets to the list length (each round consumes at least one cell, so
the budget never runs out before the cells do). -/
def weekRowsGo : Nat → List Nat → List (List Nat)
  | 0, _ => []
  | _ + 1, [] => []
  | n + 1, a :: t => ((a :: t).take 7) :: weekRowsGo n ((a :: t).drop 7)

/-- Split a flat list of day cells into rows of seven, as
`calendar.monthdayscalendar` does. -/
def weekRows (l : List Nat) : List (List Nat) :=
  weekRowsGo l.length l

/-- Python's `calendar.monthcalendar(y, m)` with the default Monday-first
week: rows of seven cells, day numbers of the month in order, zero-padded
before the first day and after the last. -/
def monthcalendar (y m : Nat) : List (List Nat) :=
  let n := daysInMonth y m
  let w0 := weekday ⟨y, m, 1⟩
  let pad := (7 - (w0 + n) % 7) % 7
  weekRows (List.replicate w0 0 ++ List.range' 1 n ++ List.replicate pad 0)

/-- The per-day marks the calendar loop renders: for every nonzero cell
(in row-major order) the day number, paired with whether
`datetime.date(today.year, today.month, day)` is in the cooked-on set. -/
def calendarMarks (cooked : Finset Date) (y m : Nat) : List (Nat × Bool) :=
  (((monthcalendar y m).flatten).filter (fun day => day ≠ 0)).map
    (fun day => (day, decide (Date.mk y m day ∈ cooked)))

/-- The mutable locals of the accumulation loop.  The loop body reads
`recipes` but assigns only `cooked_dates` and `this_month_count`; the
record carries `recipes` through so that the frame property is visible. -/
structure LoopState where
  recipes : List CookingEvent
  cooked_dates : Finset Date
  this_month_count : Nat
deriving DecidableEq

/-- One iteration of `for r in recipes`: add the event's date to the
cooked-on set and count it when it falls in the reference month. -/
def ingest (today : Date) (s : LoopState) (r : CookingEvent) : LoopState :=
  let dt := occurred_date r
  { s with
    cooked_dates := insert dt s.cooked_dates,
    this_month_count :=
      if dt.year = today.year ∧ dt.month = today.month
      then s.this_month_count + 1 else s.this_month_count }

/-- The whole accumulation loop, run from the initial state. -/
def ingestAll (recipes : List CookingEvent) (today : Date) : LoopState :=
  recipes.foldl (ingest today) ⟨recipes, ∅, 0⟩

/-- The backward streak walk (`while check_date in cooked_dates`), bounded
by fuel.  The walk probes pairwise-distinct days, all members of the
cooked-on set, so `recipes.length` fuel is enough for every state the
Python program can reach; the sufficiency is proved below. -/
def streakFuel (cooked : Finset Date) : Nat → Date → Nat
  | 0, _ => 0
  | fuel + 1, check_date =>
    if check_date ∈ cooked then streakFuel cooked fuel check_date.pred + 1 else 0

/-- The output record of the statistics computation. -/
structure UsageSummary where
  current_month_count : Nat
  current_streak : Nat
  total_count : Nat
  calendar_marks : List (Nat × Bool)
deriving DecidableEq, Repr

/-- `display_stats_and_calendar`, with the one clock read
(`datetime.date.today()`) passed in as `today`. -/
def display_stats_and_calendar (recipes : List CookingEvent) (today : Date) : UsageSummary :=
  let s := ingestAll recipes today
  { current_month_count := s.this_month_count,
    current_streak := streakFuel s.cooked_dates recipes.length today,
    total_count := recipes.length,
    calendar_marks := calendarMarks s.cooked_dates today.year today.month }

/-- The specification's `summarize(events, reference_date)`: the same
computation with the reference date injected. -/
def summarize (events : List CookingEvent) (reference_date : Date) : UsageSummary :=
  display_stats_and_calendar events reference_date

/-- Lexicographic rank of a date, used to show the walk's probes are
pairwise distinct. -/
def Date.key (d : Date) : Nat :=
  d.year * 372 + d.month * 31 + d.day

/-- A cooking event dated at midnight of the given day (handy for concrete
instances). -/
def mkEvent (y m d : Nat) : CookingEvent :=
  ⟨⟨⟨y, m, d⟩, 0⟩⟩

/-! ### Characterizations of the accumulation loop -/

/-- The loop body never writes the `recipes` field. -/
theorem foldl_ingest_recipes (today : Date) :
    ∀ (l : List CookingEvent) (s : LoopState),
      (l.foldl (ingest today) s).recipes = s.recipes := by
  intro l
  induction l with
  | nil => intro s; rfl
  | cons a t ih => intro s; rw [List.foldl_cons, ih]; rfl

/-- The cooked-on set collected by the loop is the set of distinct
occurrence dates of the events. -/
theorem foldl_ingest_cooked (today : Date) :
    ∀ (l : List CookingEvent) (s : LoopState),
      (l.foldl (ingest today) s).cooked_dates
        = s.cooked_dates ∪ (l.map occurred_date).toFinset := by
  intro l
  induction l with
  | nil => intro s; simp
  | cons a t ih =>
      intro s
      rw [List.foldl_cons, ih]
      simp [ingest, Finset.insert_union, Finset.union_insert]

/-- The month counter collected by the loop counts the events whose date
falls in the reference month. -/
theorem foldl_ingest_count (today : Date) :
    ∀ (l : List CookingEvent) (s : LoopState),
      (l.foldl (ingest today) s).this_month_count
        = s.this_month_count
          + l.countP (fun r => decide ((occurred_date r).year = today.year
              ∧ (occurred_date r).month = today.month)) := by
  intro l
  induction l with
  | nil => intro s; simp
  | cons a t ih =>
      intro s
      rw [List.foldl_cons, ih, List.countP_cons]
      simp only [ingest]
      by_cases h : (occurred_date a).year = today.year ∧ (occurred_date a).month = today.month
      · simp [h]; omega
      · simp [h]

theorem ingestAll_recipes (recipes : List CookingEvent) (today : Date) :
    (ingestAll recipes today).recipes = recipes :=
  foldl_ingest_recipes today recipes _

theorem ingestAll_cooked (recipes : List CookingEvent) (today : Date) :
    (ingestAll recipes today).cooked_dates = (recipes.map occurred_date).toFinset := by
  rw [ingestAll, foldl_ingest_cooked]
  simp

theorem ingestAll_count (recipes : List CookingEvent) (today : Date) :
    (ingestAll recipes today).this_month_count
      = recipes.countP (fun r => decide ((occurred_date r).year = today.year
          ∧ (occurred_date r).month = today.month)) := by
  rw [ingestAll, foldl_ingest_count]
  simp

/-! ### The streak walk -/

theorem predIter_succ_outer (n : Nat) (d : Date) :
    Date.predIter (n + 1) d = (Date.predIter n d).pred := by
  induction n generalizing d with
  | zero => rfl
  | succ m ih => rw [Date.predIter, ih]; rfl

/-- The fuelled walk computes the exact streak as soon as the fuel covers
the walk's length: if the `s` days ending at `d` are all cooked-on and the
day before them is not, the walk returns `s`. -/
theorem streakFuel_eq_of (cooked : Finset Date) :
    ∀ (s : Nat) (d : Date) (fuel : Nat), s ≤ fuel →
      (∀ i, i < s → Date.predIter i d ∈ cooked) →
      Date.predIter s d ∉ cooked →
      streakFuel cooked fuel d = s := by
  intro s
  induction s with
  | zero =>
      intro d fuel _ _ habs
      cases fuel with
      | zero => rfl
      | succ f => rw [streakFuel]; exact if_neg habs
  | succ n ih =>
      intro d fuel hle hrun habs
      cases fuel with
      | zero => omega
      | succ f =>
          have hd : d ∈ cooked := hrun 0 (Nat.succ_pos n)
          rw [streakFuel, if_pos hd]
          have : streakFuel cooked f d.pred = n := by
            refine ih d.pred f (by omega) (fun i hi => ?_) habs
            exact hrun (i + 1) (by omega)
          omega

theorem daysInMonth_le (y m : Nat) : daysInMonth y m ≤ 31 := by
  unfold daysInMonth
  split <;> try split <;> omega

theorem daysInMonth_ge (y m : Nat) : 28 ≤ daysInMonth y m := by
  unfold daysInMonth
  split <;> try split <;> omega

/-- Stepping one day back strictly decreases the rank of a valid date. -/
theorem key_pred_lt (d : Date) (h : d.Valid) : d.pred.key < d.key := by
  obtain ⟨hy, hm1, hm2, hd1, _⟩ := h
  unfold Date.pred Date.key
  have h31 := daysInMonth_le d.year (d.month - 1)
  split
  · simp; omega
  · split
    · simp; omega
    · simp; omega

/-- Along a run of probed days that all lie in a set of valid dates, the
rank strictly decreases between any two probes. -/
theorem chain_key_lt (cooked : Finset Date) (hv : ∀ x ∈ cooked, x.Valid)
    (d : Date) (s : Nat) (h : ∀ i, i < s → Date.predIter i d ∈ cooked) :
    ∀ j, j ≤ s → ∀ i, i < j → (Date.predIter j d).key < (Date.predIter i d).key := by
  intro j
  induction j with
  | zero => intro _ i hi; omega
  | succ n ih =>
      intro hj i hi
      have hstep : (Date.predIter (n + 1) d).key < (Date.predIter n d).key := by
        rw [predIter_succ_outer]
        exact key_pred_lt _ (hv _ (h n (by omega)))
      rcases Nat.lt_or_ge i n with hlt | hge
      · exact lt_trans hstep (ih (by omega) i hlt)
      · have : i = n := by omega
        rw [this]; exact hstep

/-- Pigeonhole bound: if the `s` days ending at `d` are all in a finite
set of valid dates, then `s` is at most the size of the set. -/
theorem chain_card_le (cooked : Finset Date) (hv : ∀ x ∈ cooked, x.Valid)
    (d : Date) (s : Nat) (h : ∀ i, i < s → Date.predIter i d ∈ cooked) :
    s ≤ cooked.card := by
  have hinj : Set.InjOn (fun i => Date.predIter i d) ↑(Finset.range s) := by
    intro i hi j hj heq
    have heq' : Date.predIter i d = Date.predIter j d := heq
    simp only [Finset.coe_range, Set.mem_Iio] at hi hj
    by_contra hne
    rcases Nat.lt_or_ge i j with hlt | hge
    · have := chain_key_lt cooked hv d s h j (by omega) i hlt
      rw [heq'] at this
      omega
    · have hlt : j < i := by omega
      have := chain_key_lt cooked hv d s h i (by omega) j hlt
      rw [heq'] at this
      omega
  have := Finset.card_le_card_of_injOn (fun i => Date.predIter i d)
    (fun i hi => h i (Finset.mem_range.mp hi)) hinj
  simpa using this

/-- Every date in the cooked-on set of an all-valid event list is valid. -/
theorem cooked_valid (events : List CookingEvent) (today : Date)
    (hvalid : ∀ e ∈ events, (occurred_date e).Valid) :
    ∀ x ∈ (ingestAll events today).cooked_dates, x.Valid := by
  intro x hx
  rw [ingestAll_cooked, List.mem_toFinset, List.mem_map] at hx
  obtain ⟨e, he, rfl⟩ := hx
  exact hvalid e he

/-- The cooked-on set is no larger than the event list. -/
theorem cooked_card_le (events : List CookingEvent) (today : Date) :
    (ingestAll events today).cooked_dates.card ≤ events.length := by
  rw [ingestAll_cooked]
  calc (events.map occurred_date).toFinset.card
      ≤ (events.map occurred_date).length := List.toFinset_card_le _
    _ = events.length := List.length_map _ _

/-- When all event dates are valid, the backward walk stops within
`events.length` probes: some probed day is absent from the cooked-on set. -/
theorem walk_stops (events : List CookingEvent) (ref : Date)
    (hvalid : ∀ e ∈ events, (occurred_date e).Valid) :
    ∃ j, j ≤ events.length ∧ Date.predIter j ref ∉ (ingestAll events ref).cooked_dates := by
  by_contra hc
  push_neg at hc
  have hall : ∀ i, i < events.length + 1 → Date.predIter i ref ∈ (ingestAll events ref).cooked_dates := by
    intro i hi
    exact hc i (by omega)
  have := chain_card_le _ (cooked_valid events ref hvalid) ref (events.length + 1) hall
  have := cooked_card_le events ref
  omega

/-! ### The calendar grid -/

theorem weekRowsGo_flatten :
    ∀ (fuel : Nat) (l : List Nat), l.length ≤ fuel → (weekRowsGo fuel l).flatten = l := by
  intro fuel
  induction fuel with
  | zero =>
      intro l hl
      have : l = [] := List.eq_nil_of_length_eq_zero (by omega)
      rw [this]; rfl
  | succ n ih =>
      intro l hl
      cases l with
      | nil => rfl
      | cons a t =>
          rw [weekRowsGo, List.flatten_cons,
            ih ((a :: t).drop 7)
              (by rw [List.length_drop, List.length_cons]
                  rw [List.length_cons] at hl
                  omega),
            List.take_append_drop]

theorem weekRows_flatten (l : List Nat) : (weekRows l).flatten = l :=
  weekRowsGo_flatten l.length l (le_refl _)

theorem filter_replicate_zero (k : Nat) :
    (List.replicate k (0 : Nat)).filter (fun day => day ≠ 0) = [] := by
  induction k with
  | zero => rfl
  | succ n ih => simp [List.replicate, ih]

theorem filter_range_one (a n : Nat) (ha : 1 ≤ a) :
    (List.range' a n).filter (fun day => day ≠ 0) = List.range' a n := by
  rw [List.filter_eq_self]
  intro x hx
  have := List.mem_range'_1.mp hx
  simp
  omega

/-- Closed form of the rendered marks: one entry per day of the month, in
order, marked by membership of that date in the cooked-on set. -/
theorem calendarMarks_eq (cooked : Finset Date) (y m : Nat) :
    calendarMarks cooked y m
      = (List.range' 1 (daysInMonth y m)).map
          (fun d => (d, decide (Date.mk y m d ∈ cooked))) := by
  unfold calendarMarks monthcalendar
  rw [weekRows_flatten, List.filter_append, List.filter_append,
    filter_replicate_zero, filter_replicate_zero, filter_range_one _ _ (le_refl 1)]
  simp

/-! ### Projections of the summary -/

theorem summarize_streak (events : List CookingEvent) (ref : Date) :
    (summarize events ref).current_streak
      = streakFuel (ingestAll events ref).cooked_dates events.length ref := rfl

theorem summarize_month (events : List CookingEvent) (ref : Date) :
    (summarize events ref).current_month_count = (ingestAll events ref).this_month_count := rfl

theorem summarize_marks (events : List CookingEvent) (ref : Date) :
    (summarize events ref).calendar_marks
      = calendarMarks (ingestAll events ref).cooked_dates ref.year ref.month := rfl

/-- Looking a key up in an association list built over its key list. -/
theorem lookup_map_pair (f : Nat → Bool) (l : List Nat) (d : Nat) (hd : d ∈ l) :
    (l.map (fun x => (x, f x))).lookup d = some (f d) := by
  induction l with
  | nil => simp at hd
  | cons a t ih =>
      rw [List.map_cons]
      by_cases h : d = a
      · subst h; simp [List.lookup]
      · have hdt : d ∈ t := by
          rcases List.mem_cons.mp hd with h1 | h1
          · exact absurd h1 h
          · exact h1
        have hba : (d == a) = false := by simp [h]
        simp [List.lookup, hba, ih hdt]

/-- The streak is positive exactly when the reference day itself is in the
cooked-on set. -/
theorem streak_pos_iff (events : List CookingEvent) (ref : Date) :
    1 ≤ (summarize events ref).current_streak
      ↔ ref ∈ (ingestAll events ref).cooked_dates := by
  constructor
  · intro h
    by_contra habs
    rw [summarize_streak] at h
    cases hl : events.length with
    | zero => rw [hl] at h; simp [streakFuel] at h
    | succ n =>
        rw [hl, streakFuel, if_neg habs] at h
        omega
  · intro h
    rw [summarize_streak]
    cases events with
    | nil =>
        exfalso
        rw [ingestAll_cooked] at h
        simp at h
    | cons a t =>
        rw [List.length_cons, streakFuel, if_pos h]
        omega

/-! ### The claims -/

/-- C1: `current_streak` is the length of the unbroken backward run of
cooked-on days ending at the reference date: it is 0 when the reference
date is absent from the cooked-on set, and `k + 1` when the reference date
and the `k` immediately preceding days are present but the `(k+1)`-th
preceding day is absent. -/
theorem current_streak_backward_run (events : List CookingEvent) (ref : Date) (k : Nat)
    (hvalid : ∀ e ∈ events, (occurred_date e).Valid) :
    (ref ∉ (ingestAll events ref).cooked_dates → (summarize events ref).current_streak = 0)
    ∧ ((∀ i, i ≤ k → Date.predIter i ref ∈ (ingestAll events ref).cooked_dates) →
        Date.predIter (k + 1) ref ∉ (ingestAll events ref).cooked_dates →
        (summarize events ref).current_streak = k + 1) := by
  constructor
  · intro habs
    rw [summarize_streak]
    exact streakFuel_eq_of _ 0 ref events.length (Nat.zero_le _)
      (fun i hi => absurd hi (by omega)) habs
  · intro hrun hstop
    rw [summarize_streak]
    have h1 : k + 1 ≤ (ingestAll events ref).cooked_dates.card :=
      chain_card_le _ (cooked_valid events ref hvalid) ref (k + 1)
        (fun i hi => hrun i (by omega))
    have h2 := cooked_card_le events ref
    exact streakFuel_eq_of _ (k + 1) ref events.length (by omega)
      (fun i hi => hrun i (by omega)) hstop

theorem current_streak_backward_run_witness :
    (summarize [mkEvent 2024 3 10, mkEvent 2024 3 9, mkEvent 2024 3 8, mkEvent 2024 3 5]
      ⟨2024, 3, 10⟩).current_streak = 3 :=
  (current_streak_backward_run
      [mkEvent 2024 3 10, mkEvent 2024 3 9, mkEvent 2024 3 8, mkEvent 2024 3 5]
      ⟨2024, 3, 10⟩ 2 (by decide)).2 (by decide) (by decide)

/-- C2: `calendar_marks` carries exactly the day numbers 1 through the last
day of the reference month (leap years respected by `daysInMonth`), and a
day is marked true exactly when its date is in the cooked-on set. -/
theorem calendar_marks_days (events : List CookingEvent) (ref : Date) :
    ((summarize events ref).calendar_marks).map Prod.fst
        = List.range' 1 (daysInMonth ref.year ref.month)
    ∧ ((summarize events ref).calendar_marks).length = daysInMonth ref.year ref.month
    ∧ ∀ p ∈ (summarize events ref).calendar_marks,
        (p.2 = true ↔ Date.mk ref.year ref.month p.1 ∈ (ingestAll events ref).cooked_dates) := by
  rw [summarize_marks, calendarMarks_eq]
  refine ⟨?_, ?_, ?_⟩
  · rw [List.map_map]
    rw [show (Prod.fst ∘ fun d : Nat =>
        (d, decide (Date.mk ref.year ref.month d ∈ (ingestAll events ref).cooked_dates)))
      = id from rfl]
    exact List.map_id _
  · rw [List.length_map, List.length_range']
  · intro p hp
    rw [List.mem_map] at hp
    obtain ⟨d, _, rfl⟩ := hp
    simp

theorem calendar_marks_days_witness :
    (((15 : Nat), true).2 = true
      ↔ Date.mk 2024 2 15 ∈ (ingestAll [mkEvent 2024 2 15] ⟨2024, 2, 15⟩).cooked_dates) :=
  (calendar_marks_days [mkEvent 2024 2 15] ⟨2024, 2, 15⟩).2.2 (15, true) (by decide)

/-- C3: `current_month_count` counts every element of `events` (duplicates
included) whose occurrence date matches the reference year and month. -/
theorem current_month_count_filter (events : List CookingEvent) (ref : Date) :
    (summarize events ref).current_month_count
      = (events.filter (fun e => decide ((occurred_date e).year = ref.year
          ∧ (occurred_date e).month = ref.month))).length := by
  rw [summarize_month, ingestAll_count, List.countP_eq_length_filter]

/-- C4: `summarize` is deterministic in its two arguments; the embedding
passes the single clock read in as `reference_date`, so no ambient state is
consulted and equal inputs give identical outputs. -/
theorem summarize_deterministic (e₁ e₂ : List CookingEvent) (d₁ d₂ : Date)
    (he : e₁ = e₂) (hd : d₁ = d₂) :
    summarize e₁ d₁ = summarize e₂ d₂ := by
  rw [he, hd]

theorem summarize_deterministic_witness :
    summarize [mkEvent 2024 2 15] ⟨2024, 2, 15⟩ = summarize [mkEvent 2024 2 15] ⟨2024, 2, 15⟩ :=
  summarize_deterministic [mkEvent 2024 2 15] [mkEvent 2024 2 15] ⟨2024, 2, 15⟩ ⟨2024, 2, 15⟩
    rfl rfl

/-- C5: on an empty events collection `summarize` returns all-zero counts
and an all-false calendar for the reference month. -/
theorem summarize_empty (ref : Date) :
    summarize [] ref =
      { current_month_count := 0, current_streak := 0, total_count := 0,
        calendar_marks := (List.range' 1 (daysInMonth ref.year ref.month)).map
          (fun d => (d, false)) } := by
  have base : summarize [] ref =
      { current_month_count := 0, current_streak := 0, total_count := 0,
        calendar_marks := calendarMarks (∅ : Finset Date) ref.year ref.month } := rfl
  have h : calendarMarks (∅ : Finset Date) ref.year ref.month
      = (List.range' 1 (daysInMonth ref.year ref.month)).map (fun d => (d, false)) := by
    rw [calendarMarks_eq]
    apply List.map_congr_left
    intro a _
    simp
  rw [base, h]

/-- C6: `total_count` is the number of elements supplied, duplicates and
all (`len(recipes)` in the source). -/
theorem total_count_is_length (events : List CookingEvent) (ref : Date) :
    (summarize events ref).total_count = events.length := rfl

/-- C7: `current_month_count` is invariant under permutation of the
events, and prepending an event that duplicates an existing timestamp
raises it by exactly one when the new event falls in the reference
month (and zero otherwise). -/
theorem month_count_perm_and_dup (events₁ events₂ : List CookingEvent) (ref : Date)
    (e : CookingEvent) :
    (events₁.Perm events₂ →
        (summarize events₁ ref).current_month_count
          = (summarize events₂ ref).current_month_count)
    ∧ ((∃ e₀ ∈ events₁, e₀.created_at = e.created_at) →
        (summarize (e :: events₁) ref).current_month_count
          = (summarize events₁ ref).current_month_count
            + (if (occurred_date e).year = ref.year ∧ (occurred_date e).month = ref.month
               then 1 else 0)) := by
  constructor
  · intro hperm
    rw [summarize_month, summarize_month, ingestAll_count, ingestAll_count]
    exact hperm.countP_eq _
  · intro _
    rw [summarize_month, summarize_month, ingestAll_count, ingestAll_count,
      List.countP_cons]
    by_cases h : (occurred_date e).year = ref.year ∧ (occurred_date e).month = ref.month
    · simp [h]
    · simp [h]

theorem month_count_perm_and_dup_witness :
    ((summarize [mkEvent 2024 3 10, mkEvent 2024 2 1] ⟨2024, 3, 10⟩).current_month_count
      = (summarize [mkEvent 2024 2 1, mkEvent 2024 3 10] ⟨2024, 3, 10⟩).current_month_count)
    ∧ ((summarize (mkEvent 2024 3 10 :: [mkEvent 2024 3 10, mkEvent 2024 2 1])
          ⟨2024, 3, 10⟩).current_month_count
        = (summarize [mkEvent 2024 3 10, mkEvent 2024 2 1]
            ⟨2024, 3, 10⟩).current_month_count
          + (if (occurred_date (mkEvent 2024 3 10)).year = (Date.mk 2024 3 10).year
              ∧ (occurred_date (mkEvent 2024 3 10)).month = (Date.mk 2024 3 10).month
             then 1 else 0)) :=
  ⟨(month_count_perm_and_dup [mkEvent 2024 3 10, mkEvent 2024 2 1]
      [mkEvent 2024 2 1, mkEvent 2024 3 10] ⟨2024, 3, 10⟩ (mkEvent 2024 3 10)).1
      (List.Perm.swap _ _ _),
   (month_count_perm_and_dup [mkEvent 2024 3 10, mkEvent 2024 2 1]
      [mkEvent 2024 2 1, mkEvent 2024 3 10] ⟨2024, 3, 10⟩ (mkEvent 2024 3 10)).2
      ⟨mkEvent 2024 3 10, by decide⟩⟩

/-- C8: the backward streak walk terminates: on valid dates it stabilizes
within `events.length` probes, so every budget at least that large returns
the program's streak value. -/
theorem streak_walk_terminates (events : List CookingEvent) (ref : Date)
    (hvalid : ∀ e ∈ events, (occurred_date e).Valid) :
    ∀ fuel, events.length ≤ fuel →
      streakFuel (ingestAll events ref).cooked_dates fuel ref
        = (summarize events ref).current_streak := by
  obtain ⟨j, hjle, hjabs⟩ := walk_stops events ref hvalid
  have hex : ∃ i, Date.predIter i ref ∉ (ingestAll events ref).cooked_dates := ⟨j, hjabs⟩
  have hspec := Nat.find_spec hex
  have hmin : ∀ i, i < Nat.find hex →
      Date.predIter i ref ∈ (ingestAll events ref).cooked_dates := by
    intro i hi
    have := Nat.find_min hex hi
    by_contra hc
    exact this hc
  have hfind_le : Nat.find hex ≤ events.length :=
    le_trans (Nat.find_min' hex hjabs) hjle
  intro fuel hfuel
  rw [summarize_streak,
    streakFuel_eq_of _ (Nat.find hex) ref fuel (by omega) hmin hspec,
    streakFuel_eq_of _ (Nat.find hex) ref events.length (by omega) hmin hspec]

theorem streak_walk_terminates_witness :
    streakFuel (ingestAll [mkEvent 2024 3 10] ⟨2024, 3, 10⟩).cooked_dates 5 ⟨2024, 3, 10⟩
      = (summarize [mkEvent 2024 3 10] ⟨2024, 3, 10⟩).current_streak :=
  streak_walk_terminates [mkEvent 2024 3 10] ⟨2024, 3, 10⟩ (by decide) 5 (by decide)

/-- C9: the computation never mutates its input: the loop state carries
the `recipes` list through every iteration unchanged, and the summary is a
freshly built record. -/
theorem input_events_unchanged (events : List CookingEvent) (ref : Date) :
    (ingestAll events ref).recipes = events :=
  ingestAll_recipes events ref

/-- C10: cross-field consistency: the streak is positive exactly when the
calendar mark at the reference day-of-month is true — both say the
reference date is in the cooked-on set. -/
theorem streak_iff_reference_marked (events : List CookingEvent) (ref : Date)
    (href : ref.Valid) :
    (1 ≤ (summarize events ref).current_streak
      ↔ ((summarize events ref).calendar_marks).lookup ref.day = some true) := by
  rw [streak_pos_iff, summarize_marks, calendarMarks_eq]
  have hday : ref.day ∈ List.range' 1 (daysInMonth ref.year ref.month) := by
    rw [List.mem_range'_1]
    obtain ⟨_, _, _, h4, h5⟩ := href
    omega
  rw [lookup_map_pair _ _ _ hday,
    show Date.mk ref.year ref.month ref.day = ref from rfl]
  simp

theorem streak_iff_reference_marked_witness :
    (1 ≤ (summarize [mkEvent 2024 3 10] ⟨2024, 3, 10⟩).current_streak
      ↔ ((summarize [mkEvent 2024 3 10] ⟨2024, 3, 10⟩).calendar_marks).lookup 10
          = some true) :=
  streak_iff_reference_marked [mkEvent 2024 3 10] ⟨2024, 3, 10⟩ (by decide)

end KitchenLog
